import Mathlib

/-!
Shallow embedding of the full-node cluster Manager (Go package `node`,
file modelled from `src/unnamed/part_000`).

The Manager owns a node set (Go map from node name to `Node`), a consistent
hash ring, a repartition resolver and epoch bookkeeping, and exposes
`Add`/`Remove`/`Get`/`List`/`Distribute`/`Route`.

Modelling decisions, all traceable to the source:
* A Go variable of interface type `Node` may be `nil`; it is modelled as
  `Option NodeData` (`GoNode`), with `none` for the nil interface.
* Go map reads `m.nodes[name]` yield the zero value (nil) on a missing key;
  this is `goMapGet` (assoc-list lookup followed by `Option.join`).  The
  two-result read `_, ok := m.nodes[name]` is `(lookupA ...).isSome`.
* Calling a method on a nil interface value panics in Go
  (`m.hashRing.Add(node)` with a nil `node`, `node.Close()` on a nil entry).
  Operations that can hit such a call return an extra `Bool` that is `true`
  exactly when the Go code would panic at that point; the returned state is
  the state at the moment of the panic (map writes that already happened
  persist, later statements do not run).
* `Node.Close()` is an external effect; `remove` additionally returns the
  list of nodes it closed.
* The consistent-hash ring (external library `buraksezer/consistent`) is
  modelled as a list of members keyed by the member identity
  (`NodeData.name`): `Consistent.Add` is a no-op on a present key,
  `Consistent.Remove` drops the key, and `LocateKey` is an abstract
  `Locator` carrying exactly the contract the spec states for it
  (deterministic, returns a member, `none` only on an empty ring).
* `xxhash.Sum64` and `rpc.Url2NodeName` live outside the visible source;
  they are arbitrary deterministic functions, fields of the environment
  `Env` below.
-/

namespace RpcGateway

/-- The data of one backend node handle: identity (name) and address (URL). -/
structure NodeData where
  name : String
  url : String
deriving DecidableEq, Repr

/-- A Go variable of interface type `Node`: `none` is the nil interface. -/
abbrev GoNode := Option NodeData

/-- Association-list lookup, modelling a Go map read with presence flag
(`v, ok := m[k]` is `lookupA m k = some v`). First match wins; the Manager
keeps keys unique. -/
def lookupA {α : Type} : List (String × α) → String → Option α
  | [], _ => none
  | p :: rest, k => if p.1 = k then some p.2 else lookupA rest k

/-- Go map read without the presence flag: a missing key yields the zero
value of the value type, which for the interface type `Node` is nil. -/
def goMapGet (l : List (String × GoNode)) (k : String) : GoNode :=
  (lookupA l k).join

/-- `delete(m, k)` on a Go map modelled as an association list. -/
def eraseA {α : Type} : List (String × α) → String → List (String × α)
  | [], _ => []
  | p :: rest, k => if p.1 = k then eraseA rest k else p :: eraseA rest k

/-- Does the ring already contain a member with this identity? -/
def ringHasName : List NodeData → String → Bool
  | [], _ => false
  | d :: rest, name => if d.name = name then true else ringHasName rest name

/-- `Consistent.Add`: no-op when a member with the same key is present,
otherwise the member joins the ring. -/
def ringAdd (d : NodeData) (r : List NodeData) : List NodeData :=
  if ringHasName r d.name then r else r ++ [d]

/-- `Consistent.Remove`: drop the member with the given key; idempotent when
absent. -/
def ringRemove (name : String) : List NodeData → List NodeData
  | [] => []
  | d :: rest => if d.name = name then ringRemove name rest else d :: ringRemove name rest

/-- The internal `add` used by `consistent.New`, which overwrites a member
stored under the same key. -/
def ringInsertOverwrite (d : NodeData) (r : List NodeData) : List NodeData :=
  ringRemove d.name r ++ [d]

/-- `consistent.New(members, cfg)` over members already known to be non-nil
(the construction panics before this point otherwise, see
`newManagerWithRepartition`). -/
def ringOfMembers (ms : List GoNode) : List NodeData :=
  ms.foldl (fun r n => match n with | some d => ringInsertOverwrite d r | none => r) []

/-- `Consistent.LocateKey`: the ring's key-to-member map, abstract up to the
contract the Manager relies on — it is a function (deterministic), it
returns a current member, and it returns `none` exactly on an empty ring. -/
structure Locator where
  locate : List NodeData → List Nat → Option NodeData
  locate_mem : ∀ r k d, locate r k = some d → d ∈ r
  locate_none : ∀ r k, locate r k = none ↔ r = []

/-- Modelled from the spec: the repository's `RepartitionResolver`
implementations (`noopRepartitionResolver` and the stateful variant) are
not in the visible source; per spec section 4.2 the `noop` variant's `Get`
always reports not-found and its `Put` does nothing, while the stateful
variant's `Get` returns the name last `Put` for exactly that hashed key
(no false positives) and `Put` overwrites any prior value. -/
inductive Resolver where
  | noop : Resolver
  | stateful : List (Nat × String) → Resolver
deriving DecidableEq, Repr

/-- Lookup in the stateful resolver's table (latest entry first). -/
def rlookup : List (Nat × String) → Nat → Option String
  | [], _ => none
  | p :: rest, k => if p.1 = k then some p.2 else rlookup rest k

/-- `RepartitionResolver.Get(hashedKey) → (name, found)`. -/
def Resolver.get : Resolver → Nat → Option String
  | .noop, _ => none
  | .stateful t, k => rlookup t k

/-- `RepartitionResolver.Put(hashedKey, name)`. -/
def Resolver.put : Resolver → Nat → String → Resolver
  | .noop, _, _ => .noop
  | .stateful t, k, n => .stateful ((k, n) :: t)

/-- The Manager's mutable state: node set, hash ring, resolver, epoch
bookkeeping (`nodeName2Epochs`, `midEpoch`).  The lock and the metrics sink
carry no routing-visible state and are not modelled. -/
structure ManagerState where
  nodes : List (String × GoNode)
  hashRing : List NodeData
  resolver : Resolver
  nodeName2Epochs : List (String × Nat)
  midEpoch : Nat
deriving DecidableEq, Repr

/-- Modelled from the spec: the Manager's ambient pure dependencies, whose
bodies are not in the visible source.  `u2n` is `rpc.Url2NodeName` (spec:
a deterministic node name derived from the URL — any function), `hash` is
`xxhash.Sum64` (spec: a deterministic fixed-width hash — any function),
`nf` is the injected node factory `(group, name, url, hm) → (Node, error)`
with the routing-irrelevant `group`/`hm` arguments dropped and the error as
a `Bool`, and `loc` is the external ring's `LocateKey` contract. -/
structure Env where
  u2n : String → String
  hash : List Nat → Nat
  nf : String → String → GoNode × Bool
  loc : Locator

/-- `buildNodes`: the constructor's loop over `urls`, accumulating the node
map and the `members` slice in order. -/
def buildNodes (E : Env) : List String → List (String × GoNode) × List GoNode → List (String × GoNode) × List GoNode
  | [], acc => acc
  | url :: rest, acc =>
      if (lookupA acc.1 (E.u2n url)).isSome then buildNodes E rest acc
      else buildNodes E rest ((E.u2n url, (E.nf (E.u2n url) url).1) :: acc.1,
                              acc.2 ++ [(E.nf (E.u2n url) url).1])

/-- `NewManagerWithRepartition`.  `consistent.New` calls `member.String()` on
every member, so a nil member (factory error that returned a nil node)
panics before the Manager is ever returned: that is the `none` result. -/
def newManagerWithRepartition (E : Env) (urls : List String) (resolver : Resolver) : Option ManagerState :=
  if (buildNodes E urls ([], [])).2.all Option.isSome then
    some { nodes := (buildNodes E urls ([], [])).1,
           hashRing := ringOfMembers (buildNodes E urls ([], [])).2,
           resolver := resolver, nodeName2Epochs := [], midEpoch := 0 }
  else none

/-- `NewManager`: the plain constructor wires the no-op resolver. -/
def newManager (E : Env) (urls : List String) : Option ManagerState :=
  newManagerWithRepartition E urls Resolver.noop

/-- `Manager.Add(url)`: derive the name; if absent, store whatever the
factory returned (its error is discarded) and add it to the ring.  The
second component is `true` when `hashRing.Add(node)` panics on a nil node —
the map write before it has already happened. -/
def Manager.add (E : Env) (m : ManagerState) (url : String) : ManagerState × Bool :=
  let name := E.u2n url
  if (lookupA m.nodes name).isSome then (m, false)
  else
    match (E.nf name url).1 with
    | none => ({ m with nodes := (name, none) :: m.nodes }, true)
    | some d => ({ m with nodes := (name, some d) :: m.nodes,
                          hashRing := ringAdd d m.hashRing }, false)

/-- `Manager.Remove(url)`: if the derived name is present, close the node,
delete it from the node set and the epoch map, and remove it from the ring.
Returns (state, closed nodes, panicked): `node.Close()` on a nil entry
panics before any deletion. -/
def Manager.remove (E : Env) (m : ManagerState) (url : String) : ManagerState × List NodeData × Bool :=
  let name := E.u2n url
  match lookupA m.nodes name with
  | none => (m, [], false)
  | some none => (m, [], true)
  | some (some d) =>
      ({ m with nodes := eraseA m.nodes name,
                nodeName2Epochs := eraseA m.nodeName2Epochs name,
                hashRing := ringRemove name m.hashRing }, [d], false)

/-- `Manager.Get(url)`: read-only lookup by derived name (zero value nil on
a miss). -/
def Manager.getNode (E : Env) (m : ManagerState) (url : String) : GoNode :=
  goMapGet m.nodes (E.u2n url)

/-- `Manager.List()`: the node-set values. -/
def Manager.list (m : ManagerState) : List GoNode :=
  m.nodes.map Prod.snd

/-- `Manager.Distribute(key)`: hash the key, consult the resolver, on a hit
return `m.nodes[name]` (zero value nil on a missing key — note: no ok
check), otherwise locate on the ring, `Put` the chosen member's name and
return it; nil when the ring is empty. -/
def Manager.distribute (E : Env) (m : ManagerState) (key : List Nat) : GoNode × ManagerState :=
  let k := E.hash key
  match m.resolver.get k with
  | some name => (goMapGet m.nodes name, m)
  | none =>
      match E.loc.locate m.hashRing key with
      | none => (none, m)
      | some d => (some d, { m with resolver := m.resolver.put k d.name })

/-- `Manager.Route(key)`: `Distribute`, then the node's URL, or the empty
string on a nil node.  Metrics emission has no routing-visible effect. -/
def Manager.route (E : Env) (m : ManagerState) (key : List Nat) : String × ManagerState :=
  match Manager.distribute E m key with
  | (some d, m1) => (d.url, m1)
  | (none, m1) => ("", m1)

/-!  Well-formedness of a Manager state, as maintained by the operations for
a factory that honours its contract: node-set keys are unique (a Go map),
every stored node is non-nil and carries the name it is stored under, and
every ring member is stored in the node set under its own name. -/

/-- Well-formed Manager state. -/
structure WF (m : ManagerState) : Prop where
  keysNodup : (m.nodes.map Prod.fst).Nodup
  entriesOk : ∀ p ∈ m.nodes, p.2.map NodeData.name = some p.1
  ringSub : ∀ d ∈ m.hashRing, lookupA m.nodes d.name = some (some d)

/-- The factory contract the spec states: the returned node carries the
name it was asked to carry (`identity = name derived from its URL`). -/
def GoodFactory (E : Env) : Prop :=
  ∀ name url d, (E.nf name url).1 = some d → d.name = name

/-! Concrete instances used to evaluate the development on explicit
inputs. -/

/-- A concrete `LocateKey` satisfying the ring contract: the first member. -/
def headLocator : Locator where
  locate := fun r _ => r.head?
  locate_mem := by
    intro r k d h
    cases r with
    | nil => cases h
    | cons a t =>
        simp only [List.head?_cons] at h
        injection h with h
        subst h
        exact List.mem_cons_self _ _
  locate_none := by
    intro r k
    cases r with
    | nil => simp
    | cons a t => simp

/-- A concrete `LocateKey` picking the most recently appended member; also
within the ring contract, and witnessing that membership change can remap a
key. -/
def lastLocator : Locator where
  locate := fun r _ => r.getLast?
  locate_mem := by
    intro r k d h
    obtain ⟨hne, heq⟩ := List.mem_getLast?_eq_getLast (Option.mem_def.mpr h)
    exact heq ▸ List.getLast_mem hne
  locate_none := by
    intro r k
    exact List.getLast?_eq_none_iff

/-- A concrete well-behaved environment: names are the URLs themselves, the
hash is constantly `7`, the factory always succeeds with a node named as
asked. -/
def E0 : Env where
  u2n := fun u => u
  hash := fun _ => 7
  nf := fun name url => (some ⟨name, url⟩, false)
  loc := headLocator

/-- An environment whose factory reports an error on every URL while still
returning a (non-nil) node handle, as the Go signature allows. -/
def EBad : Env where
  u2n := fun u => u
  hash := fun _ => 7
  nf := fun name url => (some ⟨name, url⟩, true)
  loc := headLocator

/-- Node `A` of the concrete states. -/
def nodeA : NodeData := ⟨"A", "A"⟩

/-- Node `B` of the concrete states. -/
def nodeB : NodeData := ⟨"B", "B"⟩

/-- The empty Manager: no nodes, empty ring, no-op resolver. -/
def emptyM : ManagerState :=
  { nodes := [], hashRing := [], resolver := Resolver.noop,
    nodeName2Epochs := [], midEpoch := 0 }

/-- A one-node Manager `{A}` with an empty stateful resolver. -/
def mASt : ManagerState :=
  { nodes := [("A", some nodeA)], hashRing := [nodeA],
    resolver := Resolver.stateful [], nodeName2Epochs := [], midEpoch := 0 }

/-- A one-node Manager `{A}` with the no-op resolver, the result of
`NewManager` on the single URL `"A"`. -/
def mA : ManagerState :=
  { nodes := [("A", some nodeA)], hashRing := [nodeA],
    resolver := Resolver.noop, nodeName2Epochs := [], midEpoch := 0 }

/-- A two-node Manager `{A, B}` with a stateful resolver that has pinned
hashed key `7` to node `B`. -/
def mAB : ManagerState :=
  { nodes := [("A", some nodeA), ("B", some nodeB)],
    hashRing := [nodeA, nodeB],
    resolver := Resolver.stateful [(7, "B")],
    nodeName2Epochs := [("A", 10), ("B", 12)],
    midEpoch := 11 }

/-! General lemmas about the operations. -/

/-- Unfolding equation for `Distribute`. -/
theorem distribute_spec (E : Env) (m : ManagerState) (key : List Nat) :
    Manager.distribute E m key =
      match m.resolver.get (E.hash key) with
      | some name => (goMapGet m.nodes name, m)
      | none =>
        match E.loc.locate m.hashRing key with
        | none => (none, m)
        | some d => (some d, { m with resolver := m.resolver.put (E.hash key) d.name }) := rfl

/-- `Route` in terms of `Distribute`: the node's URL on a hit, the empty
string on a miss, same post-state. -/
theorem route_spec (E : Env) (m : ManagerState) (key : List Nat) :
    Manager.route E m key
      = (((Manager.distribute E m key).1).elim "" NodeData.url,
         (Manager.distribute E m key).2) := by
  unfold Manager.route
  rcases h : Manager.distribute E m key with ⟨n, m1⟩
  cases n <;> rfl

/-- C9: `Distribute` only ever writes the resolver: the node set, the hash
ring and the epoch bookkeeping (`nodeName2Epochs`, `midEpoch`) of the
post-state are those of the pre-state, for every key and every Manager
state. -/
theorem C9_distribute_frame (E : Env) (m : ManagerState) (key : List Nat) :
    (Manager.distribute E m key).2.nodes = m.nodes ∧
    (Manager.distribute E m key).2.hashRing = m.hashRing ∧
    (Manager.distribute E m key).2.nodeName2Epochs = m.nodeName2Epochs ∧
    (Manager.distribute E m key).2.midEpoch = m.midEpoch := by
  rw [distribute_spec]
  cases hres : m.resolver.get (E.hash key) with
  | some name => exact ⟨rfl, rfl, rfl, rfl⟩
  | none =>
      cases hloc : E.loc.locate m.hashRing key with
      | none => exact ⟨rfl, rfl, rfl, rfl⟩
      | some d => exact ⟨rfl, rfl, rfl, rfl⟩

/-- C4: on a Manager whose node set is empty (well-formed, so its ring is
empty too), `Distribute` returns nil for every key and `Route` returns the
empty string. -/
theorem C4_empty_cluster (E : Env) (m : ManagerState) (key : List Nat)
    (hwf : WF m) (hempty : m.nodes = []) :
    (Manager.distribute E m key).1 = none ∧ (Manager.route E m key).1 = "" := by
  have hring : m.hashRing = [] := by
    cases hr : m.hashRing with
    | nil => rfl
    | cons d t =>
        have := hwf.ringSub d (by rw [hr]; exact List.mem_cons_self _ _)
        rw [hempty] at this
        simp [lookupA] at this
  have hdist : (Manager.distribute E m key).1 = none := by
    rw [distribute_spec]
    cases hres : m.resolver.get (E.hash key) with
    | some name => simp [goMapGet, hempty, lookupA]
    | none =>
        have hl : E.loc.locate m.hashRing key = none := (E.loc.locate_none _ _).mpr hring
        rw [hl]
  refine ⟨hdist, ?_⟩
  rw [route_spec, hdist]
  rfl

/-- C4 witness: the empty Manager is well-formed and has routing misses. -/
theorem C4_empty_cluster_witness :
    (Manager.distribute E0 emptyM [0]).1 = none ∧ (Manager.route E0 emptyM [0]).1 = "" :=
  C4_empty_cluster E0 emptyM [0] ⟨by decide, by decide, by decide⟩ rfl

/-- Unfolding equation for `Add`. -/
theorem add_spec (E : Env) (m : ManagerState) (url : String) :
    Manager.add E m url =
      if (lookupA m.nodes (E.u2n url)).isSome then (m, false)
      else
        match (E.nf (E.u2n url) url).1 with
        | none => ({ m with nodes := (E.u2n url, none) :: m.nodes }, true)
        | some d => ({ m with nodes := (E.u2n url, some d) :: m.nodes,
                              hashRing := ringAdd d m.hashRing }, false) := rfl

/-- C1: the required removal fallback is missing.  On the two-node cluster
`{A, B}` whose stateful resolver has pinned hashed key `7` to `B`,
`Remove("B")` leaves the resolver entry in place, and the next `Distribute`
resolves via the stale cache to the now-absent name and returns nil — it
does not fall back to a ring lookup, does not re-populate the resolver, and
returns an absent result even though node `A` is live.  (The resolver-hit
path of `Distribute` returns `m.nodes[name]` without checking presence.) -/
theorem C1_stale_resolver_returns_nil :
    (Manager.remove E0 mAB "B").fst.nodes = [("A", some nodeA)] ∧
    (Manager.distribute E0 (Manager.remove E0 mAB "B").fst [0]).1 = none ∧
    (Manager.distribute E0 (Manager.remove E0 mAB "B").fst [0]).2.resolver
      = Resolver.stateful [(7, "B")] := by
  decide

/-- C2 counterexample: a factory that reports an error (while returning the
node handle, as the Go signature permits) does not leave the Manager as if
the node did not exist — `Add` stores the node in the node set under the
derived name and adds it to the hash ring, the error being discarded. -/
theorem C2_counterexample :
    (EBad.nf "u" "u").2 = true ∧
    lookupA (Manager.add EBad emptyM "u").1.nodes "u" = some (some ⟨"u", "u"⟩) ∧
    (⟨"u", "u"⟩ : NodeData) ∈ (Manager.add EBad emptyM "u").1.hashRing := by
  decide

/-- Unfolding equation for `Remove`. -/
theorem remove_spec (E : Env) (m : ManagerState) (url : String) :
    Manager.remove E m url =
      match lookupA m.nodes (E.u2n url) with
      | none => (m, [], false)
      | some none => (m, [], true)
      | some (some d) =>
          ({ m with nodes := eraseA m.nodes (E.u2n url),
                    nodeName2Epochs := eraseA m.nodeName2Epochs (E.u2n url),
                    hashRing := ringRemove (E.u2n url) m.hashRing }, [d], false) := rfl

/-- A present key is exactly a key of the association list. -/
theorem lookupA_isSome_iff {α : Type} (l : List (String × α)) (k : String) :
    (lookupA l k).isSome ↔ k ∈ l.map Prod.fst := by
  induction l with
  | nil => simp [lookupA]
  | cons p rest ih =>
      simp only [lookupA, List.map_cons, List.mem_cons]
      by_cases h : p.1 = k
      · simp [h]
      · rw [if_neg h, ih]
        constructor
        · exact fun hm => Or.inr hm
        · rintro (hk | hm)
          · exact absurd hk.symm h
          · exact hm

/-- A successful lookup comes from an entry of the list. -/
theorem lookupA_mem {α : Type} {l : List (String × α)} {k : String} {v : α}
    (h : lookupA l k = some v) : (k, v) ∈ l := by
  induction l with
  | nil => cases h
  | cons p rest ih =>
      rw [lookupA] at h
      by_cases hp : p.1 = k
      · rw [if_pos hp] at h
        injection h with h
        have hpv : p = (k, v) := Prod.ext_iff.mpr ⟨hp, h⟩
        rw [← hpv]
        exact List.mem_cons_self _ _
      · rw [if_neg hp] at h
        exact List.mem_cons_of_mem _ (ih h)

/-- Deleting a key removes it. -/
theorem lookupA_eraseA_self {α : Type} (l : List (String × α)) (k : String) :
    lookupA (eraseA l k) k = none := by
  induction l with
  | nil => rfl
  | cons p rest ih =>
      rw [eraseA]
      by_cases hp : p.1 = k
      · rw [if_pos hp]; exact ih
      · rw [if_neg hp, lookupA, if_neg hp]; exact ih

/-- `Add` on an already-present name is a silent no-op. -/
theorem add_of_present (E : Env) (m : ManagerState) (url : String)
    (h : (lookupA m.nodes (E.u2n url)).isSome) :
    Manager.add E m url = (m, false) := by
  rw [add_spec, if_pos h]

/-- After `Add(url)` the derived name is present. -/
theorem lookupA_add_self (E : Env) (m : ManagerState) (url : String) :
    (lookupA (Manager.add E m url).1.nodes (E.u2n url)).isSome := by
  by_cases hl : (lookupA m.nodes (E.u2n url)).isSome
  · rw [add_of_present E m url hl]
    exact hl
  · rw [add_spec, if_neg hl]
    cases hnf : (E.nf (E.u2n url) url).1 with
    | none => simp [lookupA]
    | some d => simp [lookupA]

/-- C5: `Add` and `Remove` are idempotent.  After `Add(url)` the node set has
exactly one entry under the URL's derived name (and `List()` is exactly the
node-set values, so exactly one listed handle sits under that name); a
second `Add(url)` is a silent no-op returning the state unchanged; after
`Remove(url)`, a second `Remove(url)` changes nothing, closes nothing and
does not panic. -/
theorem C5_idempotent_add_remove (E : Env) (m : ManagerState) (url : String) (hwf : WF m) :
    ((Manager.add E m url).1.nodes.map Prod.fst).count (E.u2n url) = 1 ∧
    Manager.add E (Manager.add E m url).1 url = ((Manager.add E m url).1, false) ∧
    Manager.remove E (Manager.remove E m url).fst url
      = ((Manager.remove E m url).fst, [], false) := by
  refine ⟨?_, ?_, ?_⟩
  · by_cases hl : (lookupA m.nodes (E.u2n url)).isSome
    · rw [add_of_present E m url hl]
      exact List.count_eq_one_of_mem hwf.keysNodup ((lookupA_isSome_iff _ _).mp hl)
    · have hnot : E.u2n url ∉ m.nodes.map Prod.fst := fun hm =>
        hl ((lookupA_isSome_iff _ _).mpr hm)
      rw [add_spec, if_neg hl]
      cases hnf : (E.nf (E.u2n url) url).1 with
      | none =>
          simp only [List.map_cons, List.count_cons_self]
          rw [List.count_eq_zero_of_not_mem hnot]
      | some d =>
          simp only [List.map_cons, List.count_cons_self]
          rw [List.count_eq_zero_of_not_mem hnot]
  · exact add_of_present E (Manager.add E m url).1 url (lookupA_add_self E m url)
  · cases hl : lookupA m.nodes (E.u2n url) with
    | none =>
        have h1 : Manager.remove E m url = (m, [], false) := by rw [remove_spec, hl]
        rw [h1]
        exact h1
    | some v =>
        cases v with
        | none => exact absurd (hwf.entriesOk _ (lookupA_mem hl)) (by simp)
        | some d =>
            have h1 : Manager.remove E m url =
                ({ m with nodes := eraseA m.nodes (E.u2n url),
                          nodeName2Epochs := eraseA m.nodeName2Epochs (E.u2n url),
                          hashRing := ringRemove (E.u2n url) m.hashRing }, [d], false) := by
              rw [remove_spec, hl]
            rw [h1, remove_spec]
            simp [lookupA_eraseA_self]

/-- C5 witness: idempotence on the concrete two-node Manager. -/
theorem C5_idempotent_witness :
    ((Manager.add E0 mAB "C").1.nodes.map Prod.fst).count (E0.u2n "C") = 1 ∧
    Manager.add E0 (Manager.add E0 mAB "C").1 "C" = ((Manager.add E0 mAB "C").1, false) ∧
    Manager.remove E0 (Manager.remove E0 mAB "C").fst "C"
      = ((Manager.remove E0 mAB "C").fst, [], false) :=
  C5_idempotent_add_remove E0 mAB "C" ⟨by decide, by decide, by decide⟩

/-- C6: `Remove(url)` on a name mapped to a (non-nil) node closes exactly
that node, deletes its node-set entry, its epoch entry and its ring member,
and touches nothing else (the record update keeps `resolver` and `midEpoch`);
on an absent name it changes nothing, closes nothing and does not panic. -/
theorem C6_remove_closes_and_deletes (E : Env) (m : ManagerState) (url : String) (d : NodeData) :
    (lookupA m.nodes (E.u2n url) = some (some d) →
      Manager.remove E m url =
        ({ m with nodes := eraseA m.nodes (E.u2n url),
                  nodeName2Epochs := eraseA m.nodeName2Epochs (E.u2n url),
                  hashRing := ringRemove (E.u2n url) m.hashRing }, [d], false)) ∧
    (lookupA m.nodes (E.u2n url) = none → Manager.remove E m url = (m, [], false)) := by
  constructor
  · intro h
    rw [remove_spec, h]
  · intro h
    rw [remove_spec, h]

/-- C6 witness: removing node `B` from the concrete two-node Manager. -/
theorem C6_remove_witness :
    lookupA mAB.nodes (E0.u2n "B") = some (some nodeB) ∧
    Manager.remove E0 mAB "B" =
      ({ mAB with nodes := eraseA mAB.nodes (E0.u2n "B"),
                  nodeName2Epochs := eraseA mAB.nodeName2Epochs (E0.u2n "B"),
                  hashRing := ringRemove (E0.u2n "B") mAB.hashRing }, [nodeB], false) :=
  ⟨rfl, (C6_remove_closes_and_deletes E0 mAB "B" nodeB).1 rfl⟩

/-- C8: `Distribute` is deterministic — a repeated call with the same key,
on the state the first call left behind (membership unchanged; at most the
resolver was filled), returns the very same node.  In particular two calls
on an identical state agree, there being no randomness in the lookup. -/
theorem C8_distribute_deterministic (E : Env) (m : ManagerState) (key : List Nat)
    (hwf : WF m) (n : GoNode) (m1 : ManagerState)
    (h : Manager.distribute E m key = (n, m1)) :
    (Manager.distribute E m1 key).1 = n := by
  rw [distribute_spec] at h
  cases hres : m.resolver.get (E.hash key) with
  | some name =>
      rw [hres] at h
      injection h with hn hm
      subst hn
      subst hm
      rw [distribute_spec, hres]
  | none =>
      rw [hres] at h
      cases hloc : E.loc.locate m.hashRing key with
      | none =>
          rw [hloc] at h
          injection h with hn hm
          subst hn
          subst hm
          rw [distribute_spec, hres, hloc]
      | some d =>
          rw [hloc] at h
          injection h with hn hm
          subst hn
          subst hm
          rw [distribute_spec]
          cases hr : m.resolver with
          | noop =>
              simp only [Resolver.put, Resolver.get, hloc]
          | stateful t =>
              have hd : d ∈ m.hashRing := E.loc.locate_mem _ _ _ hloc
              have hlook : lookupA m.nodes d.name = some (some d) := hwf.ringSub d hd
              simp [Resolver.put, Resolver.get, rlookup, goMapGet, hlook, Option.join]

/-- C8 witness: on the one-node Manager with a fresh stateful resolver, the
first call fills the cache with `A` and the repeated call returns `A`. -/
theorem C8_distribute_deterministic_witness :
    (Manager.distribute E0 ((Manager.distribute E0 mASt [0]).2) [0]).1 = some nodeA :=
  C8_distribute_deterministic E0 mASt [0] ⟨by decide, by decide, by decide⟩
    (some nodeA) ((Manager.distribute E0 mASt [0]).2) (by decide)

/-- A Manager wired with the no-op resolver resolves every key through the
hash ring and leaves its state unchanged (`Get` always misses, `Put` does
nothing). -/
theorem distribute_noop (E : Env) (m : ManagerState) (key : List Nat)
    (h : m.resolver = Resolver.noop) :
    Manager.distribute E m key = (E.loc.locate m.hashRing key, m) := by
  rw [distribute_spec, h]
  cases hloc : E.loc.locate m.hashRing key with
  | none => rfl
  | some d =>
      simp only [Resolver.put]
      have hrec : ({ m with resolver := Resolver.noop } : ManagerState) = m := by
        rw [← h]
      rw [hrec]
      rfl

/-- C10: the plain `NewManager` constructor wires the no-op repartition
resolver, so every `Distribute` on such a Manager resolves through the hash
ring (the resolver lookup always misses, the `Put` is a no-op and the state
is unchanged — so the same holds of every subsequent call, and ring-level
stickiness across membership changes is not provided). -/
theorem C10_newManager_noop_resolver (E : Env) (urls : List String) (m : ManagerState)
    (key : List Nat) (h : newManager E urls = some m) :
    m.resolver = Resolver.noop ∧
    Manager.distribute E m key = (E.loc.locate m.hashRing key, m) := by
  have hres : m.resolver = Resolver.noop := by
    unfold newManager newManagerWithRepartition at h
    by_cases hall : (buildNodes E urls ([], [])).2.all Option.isSome
    · rw [if_pos hall] at h
      injection h with h2
      rw [← h2]
    · rw [if_neg hall] at h
      cases h
  exact ⟨hres, distribute_noop E m key hres⟩

/-- C10 witness: `NewManager` on the single URL `"A"` yields the no-op
resolver and ring-resolved distribution. -/
theorem C10_newManager_noop_resolver_witness :
    newManager E0 ["A"] = some mA ∧
    mA.resolver = Resolver.noop ∧
    Manager.distribute E0 mA [0] = (E0.loc.locate mA.hashRing [0], mA) :=
  ⟨by decide, (C10_newManager_noop_resolver E0 ["A"] mA [0] (by decide)).1,
    (C10_newManager_noop_resolver E0 ["A"] mA [0] (by decide)).2⟩

/-- A non-nil Go map read comes from a stored non-nil entry. -/
theorem goMapGet_eq_some {l : List (String × GoNode)} {k : String} {v : NodeData}
    (h : goMapGet l k = some v) : lookupA l k = some (some v) := by
  rw [goMapGet] at h
  cases hl : lookupA l k with
  | none => rw [hl] at h; cases h
  | some o =>
      rw [hl] at h
      cases o with
      | none => cases h
      | some d =>
          have h' : some d = some v := h
          injection h' with h''
          subst h''
          rfl

/-- `Add` never touches the resolver. -/
theorem add_resolver (E : Env) (m : ManagerState) (url : String) :
    (Manager.add E m url).1.resolver = m.resolver := by
  rw [add_spec]
  by_cases hl : (lookupA m.nodes (E.u2n url)).isSome
  · rw [if_pos hl]
  · rw [if_neg hl]
    cases hnf : (E.nf (E.u2n url) url).1 <;> rfl

/-- C3: stickiness under the stateful resolver.  Once `Distribute(key)` has
returned node `X` on a well-formed Manager with a stateful resolver, the
call after an intervening `Add(url)` still returns `X`, provided `X` is
still stored in the node set (the `Add` may have inserted an unrelated node,
been a no-op, or even panicked on a nil factory result — the resolver and
X's entry are untouched in every case). -/
theorem C3_stickiness (E : Env) (m : ManagerState) (key : List Nat) (url : String) (X : NodeData)
    (hwf : WF m) (hres : ∃ t, m.resolver = Resolver.stateful t)
    (h1 : (Manager.distribute E m key).1 = some X)
    (hX : lookupA (Manager.add E (Manager.distribute E m key).2 url).1.nodes X.name
            = some (some X)) :
    (Manager.distribute E (Manager.add E (Manager.distribute E m key).2 url).1 key).1
      = some X := by
  obtain ⟨t, ht⟩ := hres
  have hget : (Manager.distribute E m key).2.resolver.get (E.hash key) = some X.name := by
    have h1' := h1
    rw [distribute_spec] at h1'
    cases hg : m.resolver.get (E.hash key) with
    | some name =>
        rw [hg] at h1'
        have hlook : lookupA m.nodes name = some (some X) := goMapGet_eq_some h1'
        have hname : X.name = name := by
          have hm := hwf.entriesOk _ (lookupA_mem hlook)
          simp at hm
          exact hm
        have hm2 : (Manager.distribute E m key).2 = m := by rw [distribute_spec, hg]
        rw [hm2, hname]
        exact hg
    | none =>
        rw [hg] at h1'
        cases hloc : E.loc.locate m.hashRing key with
        | none =>
            rw [hloc] at h1'
            simp at h1'
        | some d =>
            rw [hloc] at h1'
            simp at h1'
            subst h1'
            have hm2 : (Manager.distribute E m key).2
                = { m with resolver := m.resolver.put (E.hash key) d.name } := by
              rw [distribute_spec, hg, hloc]
            rw [hm2, ht]
            simp [Resolver.put, Resolver.get, rlookup]
  rw [distribute_spec, add_resolver, hget]
  simp [goMapGet, hX, Option.join]

/-- C3 witness: `A` is chosen for the key, `B` is added, `A` is still
chosen. -/
theorem C3_stickiness_witness :
    (Manager.distribute E0 (Manager.add E0 ((Manager.distribute E0 mASt [0]).2) "B").1 [0]).1
      = some nodeA :=
  C3_stickiness E0 mASt [0] "B" nodeA ⟨by decide, by decide, by decide⟩ ⟨[], rfl⟩
    (by decide) (by decide)

/-- The node-set / hash-ring consistency invariant: every name present in
the node set has a corresponding ring member carrying that name. -/
def NodesRingInv (m : ManagerState) : Prop :=
  ∀ p ∈ m.nodes, ∃ d ∈ m.hashRing, d.name = p.1

/-- `ringHasName` decides the existence of a member with the given name. -/
theorem ringHasName_iff (r : List NodeData) (x : String) :
    ringHasName r x = true ↔ ∃ e ∈ r, e.name = x := by
  induction r with
  | nil => simp [ringHasName]
  | cons d rest ih =>
      rw [ringHasName]
      by_cases hd : d.name = x
      · rw [if_pos hd]
        constructor
        · intro _; exact ⟨d, List.mem_cons_self _ _, hd⟩
        · intro _; rfl
      · rw [if_neg hd, ih]
        constructor
        · rintro ⟨e, he, hx⟩
          exact ⟨e, List.mem_cons_of_mem _ he, hx⟩
        · rintro ⟨e, he, hx⟩
          rcases List.mem_cons.mp he with h1 | h2
          · subst h1; exact absurd hx hd
          · exact ⟨e, h2, hx⟩

/-- `Consistent.Add` keeps every existing member. -/
theorem ringAdd_mono {r : List NodeData} {e : NodeData} (d : NodeData) (h : e ∈ r) :
    e ∈ ringAdd d r := by
  rw [ringAdd]
  by_cases hh : ringHasName r d.name = true
  · rw [if_pos hh]; exact h
  · rw [if_neg hh]; exact List.mem_append_left _ h

/-- After `Consistent.Add(d)` some member carries `d`'s name. -/
theorem ringAdd_has (d : NodeData) (r : List NodeData) :
    ∃ e ∈ ringAdd d r, e.name = d.name := by
  rw [ringAdd]
  by_cases hh : ringHasName r d.name = true
  · rw [if_pos hh]
    exact (ringHasName_iff r d.name).mp hh
  · rw [if_neg hh]
    exact ⟨d, List.mem_append_right _ (List.mem_singleton_self _), rfl⟩

/-- `Consistent.Remove` keeps members carrying a different name. -/
theorem mem_ringRemove_of {r : List NodeData} {e : NodeData} {x : String}
    (he : e ∈ r) (hx : e.name ≠ x) : e ∈ ringRemove x r := by
  induction r with
  | nil => cases he
  | cons d rest ih =>
      rw [ringRemove]
      rcases List.mem_cons.mp he with h1 | h2
      · subst h1
        rw [if_neg hx]
        exact List.mem_cons_self _ _
      · by_cases hd : d.name = x
        · rw [if_pos hd]; exact ih h2
        · rw [if_neg hd]; exact List.mem_cons_of_mem _ (ih h2)

/-- Entries of the erased map were entries of the map under another key. -/
theorem mem_eraseA {α : Type} {l : List (String × α)} {k : String} {p : String × α}
    (h : p ∈ eraseA l k) : p ∈ l ∧ p.1 ≠ k := by
  induction l with
  | nil => cases h
  | cons q rest ih =>
      rw [eraseA] at h
      by_cases hq : q.1 = k
      · rw [if_pos hq] at h
        have hh := ih h
        exact ⟨List.mem_cons_of_mem _ hh.1, hh.2⟩
      · rw [if_neg hq] at h
        rcases List.mem_cons.mp h with h1 | h2
        · subst h1
          exact ⟨List.mem_cons_self _ _, hq⟩
        · have hh := ih h2
          exact ⟨List.mem_cons_of_mem _ hh.1, hh.2⟩

/-- The overwriting insert keeps a member for every name already present. -/
theorem ringInsertOverwrite_preserve {r : List NodeData} {x : String} (d : NodeData)
    (h : ∃ e ∈ r, e.name = x) : ∃ e ∈ ringInsertOverwrite d r, e.name = x := by
  rw [ringInsertOverwrite]
  by_cases hx : x = d.name
  · exact ⟨d, List.mem_append_right _ (List.mem_singleton_self _), hx.symm⟩
  · obtain ⟨e, he, hex⟩ := h
    have hr : e ∈ ringRemove d.name r := mem_ringRemove_of he (fun hh => hx (hex ▸ hh))
    exact ⟨e, List.mem_append_left _ hr, hex⟩

/-- Folding the constructor's ring-insert over any member list keeps a
member for every name already present in the accumulator. -/
theorem foldring_preserve (ms : List GoNode) (x : String) :
    ∀ r, (∃ e ∈ r, e.name = x) →
      ∃ e ∈ ms.foldl (fun r n => match n with | some d => ringInsertOverwrite d r | none => r) r,
        e.name = x := by
  induction ms with
  | nil =>
      intro r h
      simpa using h
  | cons n rest ih =>
      intro r h
      rw [List.foldl_cons]
      cases n with
      | none => exact ih r h
      | some d => exact ih _ (ringInsertOverwrite_preserve d h)

/-- Every non-nil member fed to the constructor's ring fold ends up
represented by name. -/
theorem foldring_mem (ms : List GoNode) (d : NodeData) :
    ∀ r, some d ∈ ms →
      ∃ e ∈ ms.foldl (fun r n => match n with | some d => ringInsertOverwrite d r | none => r) r,
        e.name = d.name := by
  induction ms with
  | nil => intro r h; cases h
  | cons n rest ih =>
      intro r h
      rw [List.foldl_cons]
      rcases List.mem_cons.mp h with h1 | h2
      · rw [← h1]
        exact foldring_preserve rest d.name _
          ⟨d, List.mem_append_right _ (List.mem_singleton_self _), rfl⟩
      · exact ih _ h2

/-- The constructor loop only accumulates entries whose stored handle is one
of the collected members and, for a contract-honouring factory, carries the
name it is stored under. -/
theorem buildNodes_inv (E : Env) (hgf : GoodFactory E) (urls : List String) :
    ∀ acc, (∀ p ∈ acc.1, p.2 ∈ acc.2 ∧ ∀ d, p.2 = some d → d.name = p.1) →
      ∀ p ∈ (buildNodes E urls acc).1,
        p.2 ∈ (buildNodes E urls acc).2 ∧ ∀ d, p.2 = some d → d.name = p.1 := by
  induction urls with
  | nil =>
      intro acc hacc
      simpa [buildNodes] using hacc
  | cons url rest ih =>
      intro acc hacc
      rw [buildNodes]
      by_cases hl : (lookupA acc.1 (E.u2n url)).isSome
      · rw [if_pos hl]
        exact ih acc hacc
      · rw [if_neg hl]
        apply ih
        intro p hp
        rcases List.mem_cons.mp hp with h1 | h2
        · subst h1
          refine ⟨List.mem_append_right _ (List.mem_singleton_self _), ?_⟩
          intro d hd
          exact hgf _ _ _ hd
        · have hh := hacc p h2
          exact ⟨List.mem_append_left _ hh.1, hh.2⟩

/-- C7: the node-set / hash-ring consistency invariant holds after every
completed operation, for a factory honouring the naming contract: a
completed construction establishes it, and a completed `Add` or any `Remove`
preserves it (an `Add` that panics on a nil factory result did not complete;
a `Remove` that panics changes nothing and trivially preserves it). -/
theorem C7_nodes_ring_invariant (E : Env) (hgf : GoodFactory E) :
    (∀ urls resolver m, newManagerWithRepartition E urls resolver = some m → NodesRingInv m) ∧
    (∀ m url, NodesRingInv m → (Manager.add E m url).2 = false →
        NodesRingInv (Manager.add E m url).1) ∧
    (∀ m url, NodesRingInv m → NodesRingInv (Manager.remove E m url).fst) := by
  refine ⟨?_, ?_, ?_⟩
  · intro urls resolver m h
    unfold newManagerWithRepartition at h
    by_cases hall : (buildNodes E urls ([], [])).2.all Option.isSome
    · rw [if_pos hall] at h
      injection h with h2
      subst h2
      intro p hp
      have hinv := buildNodes_inv E hgf urls ([], []) (by intro q hq; cases hq) p hp
      have hsome : p.2.isSome := List.all_eq_true.mp hall _ hinv.1
      obtain ⟨d, hd⟩ := Option.isSome_iff_exists.mp hsome
      have hdname : d.name = p.1 := hinv.2 d hd
      have hmem : some d ∈ (buildNodes E urls ([], [])).2 := hd ▸ hinv.1
      obtain ⟨e, he, hename⟩ := foldring_mem _ d [] hmem
      exact ⟨e, he, by rw [hename, hdname]⟩
    · rw [if_neg hall] at h
      cases h
  · intro m url hinv hok
    by_cases hl : (lookupA m.nodes (E.u2n url)).isSome
    · rw [add_of_present E m url hl]
      exact hinv
    · rw [add_spec, if_neg hl] at hok ⊢
      cases hnf : (E.nf (E.u2n url) url).1 with
      | none =>
          rw [hnf] at hok
          cases hok
      | some d =>
          intro p hp
          rcases List.mem_cons.mp hp with h1 | h2
          · subst h1
            obtain ⟨e, he, hename⟩ := ringAdd_has d m.hashRing
            exact ⟨e, he, by rw [hename, hgf _ _ _ hnf]⟩
          · obtain ⟨e, he, hename⟩ := hinv p h2
            exact ⟨e, ringAdd_mono d he, hename⟩
  · intro m url hinv
    cases hl : lookupA m.nodes (E.u2n url) with
    | none =>
        have h1 : Manager.remove E m url = (m, [], false) := by rw [remove_spec, hl]
        rw [h1]
        exact hinv
    | some v =>
        cases v with
        | none =>
            have h1 : Manager.remove E m url = (m, [], true) := by rw [remove_spec, hl]
            rw [h1]
            exact hinv
        | some d =>
            have h1 : Manager.remove E m url =
                ({ m with nodes := eraseA m.nodes (E.u2n url),
                          nodeName2Epochs := eraseA m.nodeName2Epochs (E.u2n url),
                          hashRing := ringRemove (E.u2n url) m.hashRing }, [d], false) := by
              rw [remove_spec, hl]
            rw [h1]
            intro p hp
            have hpe := mem_eraseA hp
            obtain ⟨e, he, hename⟩ := hinv p hpe.1
            refine ⟨e, mem_ringRemove_of he ?_, hename⟩
            rw [hename]
            exact hpe.2

/-- The concrete environment's factory honours the naming contract. -/
theorem E0_goodFactory : GoodFactory E0 := by
  intro name url d h
  injection h with h1
  rw [← h1]

/-- C7 witness: the invariant after a concrete construction, `Add` and
`Remove`. -/
theorem C7_nodes_ring_invariant_witness :
    NodesRingInv mA ∧
    NodesRingInv (Manager.add E0 mAB "C").1 ∧
    NodesRingInv (Manager.remove E0 mAB "B").fst :=
  ⟨(C7_nodes_ring_invariant E0 E0_goodFactory).1 ["A"] Resolver.noop mA (by decide),
   (C7_nodes_ring_invariant E0 E0_goodFactory).2.1 mAB "C"
     (by unfold NodesRingInv; decide) (by decide),
   (C7_nodes_ring_invariant E0 E0_goodFactory).2.2 mAB "B"
     (by unfold NodesRingInv; decide)⟩

/-- An environment whose factory reports an error with a nil node handle on
every URL. -/
def ENil : Env where
  u2n := fun u => u
  hash := fun _ => 7
  nf := fun _ _ => (none, true)
  loc := headLocator

/-- The Manager that `NewManagerWithRepartition` builds over `EBad` and the
single URL `"u"`: the factory error is discarded and the node is kept. -/
def mU : ManagerState :=
  { nodes := [("u", some ⟨"u", "u"⟩)], hashRing := [⟨"u", "u"⟩],
    resolver := Resolver.noop, nodeName2Epochs := [], midEpoch := 0 }

/-- A present key stays present under a map write. -/
theorem lookupA_cons_of_isSome {α : Type} (n : String) (v : α) {l : List (String × α)}
    {k : String} (h : (lookupA l k).isSome) :
    (lookupA ((n, v) :: l) k).isSome := by
  rw [lookupA]
  by_cases hn : n = k
  · rw [if_pos hn]
    rfl
  · rw [if_neg hn]
    exact h

/-- The constructor loop never drops a name from its accumulator. -/
theorem buildNodes_mono (E : Env) (urls : List String) :
    ∀ acc k, (lookupA acc.1 k).isSome → (lookupA (buildNodes E urls acc).1 k).isSome := by
  induction urls with
  | nil =>
      intro acc k h
      simpa [buildNodes] using h
  | cons u rest ih =>
      intro acc k h
      rw [buildNodes]
      by_cases hl : (lookupA acc.1 (E.u2n u)).isSome
      · rw [if_pos hl]
        exact ih acc k h
      · rw [if_neg hl]
        exact ih _ k (lookupA_cons_of_isSome _ _ h)

/-- After the constructor loop every listed URL's derived name is present. -/
theorem buildNodes_presence (E : Env) (urls : List String) :
    ∀ acc url, url ∈ urls → (lookupA (buildNodes E urls acc).1 (E.u2n url)).isSome := by
  induction urls with
  | nil =>
      intro acc url h
      cases h
  | cons u rest ih =>
      intro acc url h
      rw [buildNodes]
      rcases List.mem_cons.mp h with h1 | h2
      · subst h1
        by_cases hl : (lookupA acc.1 (E.u2n url)).isSome
        · rw [if_pos hl]
          exact buildNodes_mono E rest acc _ hl
        · rw [if_neg hl]
          apply buildNodes_mono
          rw [lookupA, if_pos rfl]
          rfl
      · by_cases hl : (lookupA acc.1 (E.u2n u)).isSome
        · rw [if_pos hl]
          exact ih acc url h2
        · rw [if_neg hl]
          exact ih _ url h2

/-- Every handle the constructor loop stores is one of the collected
members (no factory contract needed). -/
theorem buildNodes_handles (E : Env) (urls : List String) :
    ∀ acc, (∀ p ∈ acc.1, p.2 ∈ acc.2) →
      ∀ p ∈ (buildNodes E urls acc).1, p.2 ∈ (buildNodes E urls acc).2 := by
  induction urls with
  | nil =>
      intro acc hacc
      simpa [buildNodes] using hacc
  | cons u rest ih =>
      intro acc hacc
      rw [buildNodes]
      by_cases hl : (lookupA acc.1 (E.u2n u)).isSome
      · rw [if_pos hl]
        exact ih acc hacc
      · rw [if_neg hl]
        apply ih
        intro p hp
        rcases List.mem_cons.mp hp with h1 | h2
        · subst h1
          exact List.mem_append_right _ (List.mem_singleton_self _)
        · exact List.mem_append_left _ (hacc p h2)

/-- The constructor loop only ever appends to the member list. -/
theorem buildNodes_members_mono (E : Env) (urls : List String) :
    ∀ acc x, x ∈ acc.2 → x ∈ (buildNodes E urls acc).2 := by
  induction urls with
  | nil =>
      intro acc x h
      simpa [buildNodes] using h
  | cons u rest ih =>
      intro acc x h
      rw [buildNodes]
      by_cases hl : (lookupA acc.1 (E.u2n u)).isSome
      · rw [if_pos hl]
        exact ih acc x h
      · rw [if_neg hl]
        exact ih _ x (List.mem_append_left _ h)

/-- If every listed URL sharing the given URL's derived name gets a nil
handle from the factory, the constructor loop collects a nil member (the
first URL to claim that fresh name stores it). -/
theorem buildNodes_nil_member (E : Env) (urls : List String) :
    ∀ acc url, url ∈ urls →
      (∀ u ∈ urls, E.u2n u = E.u2n url → (E.nf (E.u2n u) u).1 = none) →
      (lookupA acc.1 (E.u2n url)).isSome = false →
      none ∈ (buildNodes E urls acc).2 := by
  induction urls with
  | nil =>
      intro acc url h
      cases h
  | cons u rest ih =>
      intro acc url hmem hcol habs
      rw [buildNodes]
      by_cases hl : (lookupA acc.1 (E.u2n u)).isSome
      · rw [if_pos hl]
        rcases List.mem_cons.mp hmem with h1 | h2
        · subst h1
          rw [habs] at hl
          exact Bool.noConfusion hl
        · by_cases hnames : E.u2n u = E.u2n url
          · rw [hnames, habs] at hl
            exact Bool.noConfusion hl
          · exact ih acc url h2 (fun x hx hcx => hcol x (List.mem_cons_of_mem _ hx) hcx) habs
      · rw [if_neg hl]
        by_cases hnames : E.u2n u = E.u2n url
        · have hnil : (E.nf (E.u2n u) u).1 = none :=
            hcol u (List.mem_cons_self _ _) hnames
          apply buildNodes_members_mono
          rw [hnil]
          exact List.mem_append_right _ (List.mem_singleton_self _)
        · rcases List.mem_cons.mp hmem with h1 | h2
          · subst h1
            exact absurd rfl hnames
          · apply ih _ url h2 (fun x hx hcx => hcol x (List.mem_cons_of_mem _ hx) hcx)
            rw [lookupA, if_neg hnames]
            exact habs

/-- A nil member among the collected handles makes `consistent.New` panic:
no Manager is returned. -/
theorem newManager_none_of_nil (E : Env) (urls : List String) (resolver : Resolver)
    (h : none ∈ (buildNodes E urls ([], [])).2) :
    newManagerWithRepartition E urls resolver = none := by
  unfold newManagerWithRepartition
  have hnall : ¬ ((buildNodes E urls ([], [])).2.all Option.isSome = true) := by
    intro hall
    have hns := List.all_eq_true.mp hall _ h
    exact Bool.noConfusion hns
  rw [if_neg hnall]

/-- C2 amended: the factory error is silently discarded, in `Add` and in the
constructor alike.  During `Add` on a fresh derived name the returned handle
is stored in the node set regardless of the error; a non-nil handle is also
added to the hash ring, while a nil handle leaves the ring untouched because
`hashRing.Add` panics on it (after the node-set write).  During
construction, whenever the constructor returns a Manager, every listed URL's
derived name — erring URLs included — is stored in the node set with a
non-nil handle and a ring member carrying that handle's name; and when the
factory call claiming a derived name returns a nil handle (every listed URL
sharing that name getting nil), `consistent.New` panics on the nil member
and no Manager is returned (the constructor's partial node map is local to
the call and unobservable). -/
theorem C2_amended_error_discarded (E : Env) (m : ManagerState) (url : String)
    (urls : List String) (resolver : Resolver) (mc : ManagerState)
    (habs : lookupA m.nodes (E.u2n url) = none)
    (_herr : (E.nf (E.u2n url) url).2 = true) :
    ((Manager.add E m url).1.nodes = (E.u2n url, (E.nf (E.u2n url) url).1) :: m.nodes) ∧
    (∀ d, (E.nf (E.u2n url) url).1 = some d →
        (Manager.add E m url).1.hashRing = ringAdd d m.hashRing ∧
        (Manager.add E m url).2 = false) ∧
    ((E.nf (E.u2n url) url).1 = none →
        (Manager.add E m url).1.hashRing = m.hashRing ∧
        (Manager.add E m url).2 = true) ∧
    (newManagerWithRepartition E urls resolver = some mc → url ∈ urls →
        ∃ v, lookupA mc.nodes (E.u2n url) = some (some v) ∧
          ∃ e ∈ mc.hashRing, e.name = v.name) ∧
    ((∀ u ∈ urls, E.u2n u = E.u2n url → (E.nf (E.u2n u) u).1 = none) → url ∈ urls →
        newManagerWithRepartition E urls resolver = none) := by
  refine ⟨?_, ?_, ?_, ?_, ?_⟩
  · rw [add_spec, habs]
    simp only [Option.isSome_none, Bool.false_eq_true, if_false]
    cases hnf : (E.nf (E.u2n url) url).1 <;> rfl
  · intro d hd
    rw [add_spec, habs]
    simp only [Option.isSome_none, Bool.false_eq_true, if_false]
    rw [hd]
    exact ⟨rfl, rfl⟩
  · intro hd
    rw [add_spec, habs]
    simp only [Option.isSome_none, Bool.false_eq_true, if_false]
    rw [hd]
    exact ⟨rfl, rfl⟩
  · intro hcons hmem
    unfold newManagerWithRepartition at hcons
    by_cases hall : (buildNodes E urls ([], [])).2.all Option.isSome
    · rw [if_pos hall] at hcons
      injection hcons with h2
      subst h2
      have hpres : (lookupA (buildNodes E urls ([], [])).1 (E.u2n url)).isSome :=
        buildNodes_presence E urls ([], []) url hmem
      obtain ⟨v, hv⟩ := Option.isSome_iff_exists.mp hpres
      have hvm : v ∈ (buildNodes E urls ([], [])).2 :=
        buildNodes_handles E urls ([], []) (by intro p hp; cases hp) _ (lookupA_mem hv)
      have hvsome : v.isSome := List.all_eq_true.mp hall _ hvm
      obtain ⟨d, hd⟩ := Option.isSome_iff_exists.mp hvsome
      subst hd
      obtain ⟨e, he, hename⟩ := foldring_mem _ d [] hvm
      exact ⟨d, hv, e, he, hename⟩
    · rw [if_neg hall] at hcons
      cases hcons
  · intro hcol hmem
    apply newManager_none_of_nil
    exact buildNodes_nil_member E urls ([], []) url hmem hcol rfl

/-- C2 witness: the erring-but-non-nil factory's node is stored by `Add`, a
completed construction over it stores and ring-represents the node, and the
nil-handle factory makes the constructor return no Manager. -/
theorem C2_amended_witness :
    (EBad.nf (EBad.u2n "u") "u").2 = true ∧
    (Manager.add EBad emptyM "u").1.nodes
      = (EBad.u2n "u", (EBad.nf (EBad.u2n "u") "u").1) :: emptyM.nodes ∧
    (∃ v, lookupA mU.nodes (EBad.u2n "u") = some (some v) ∧
      ∃ e ∈ mU.hashRing, e.name = v.name) ∧
    newManagerWithRepartition ENil ["u"] Resolver.noop = none :=
  ⟨rfl,
   (C2_amended_error_discarded EBad emptyM "u" ["u"] Resolver.noop mU rfl rfl).1,
   (C2_amended_error_discarded EBad emptyM "u" ["u"] Resolver.noop mU rfl rfl).2.2.2.1
     (by decide) (by decide),
   (C2_amended_error_discarded ENil emptyM "u" ["u"] Resolver.noop emptyM rfl rfl).2.2.2.2
     (by decide) (by decide)⟩

end RpcGateway
